import Mathlib

/-
Verification development for the gh2csv record-filtering engine and
incremental/time-series CSV export writer.

The definitions below are a shallow embedding of src/gh2csv.py:
  interpolate_nums          <- interpolate_nums (lines 166-189)
  shouldKeep and helpers    <- filter portion of collect_gh_attrs (lines 234-302)
  count_iss                 <- issue counting loop of run_arepo (lines 514-522)
  mk_row, skipRow, tsAppendRows and helpers
                            <- time-series append branch of write_to_csv (lines 403-450)

Modelling conventions: Python strings are Lean String values (worked on as
List Char); Python regular-expression searches with literal patterns are
substring tests; the pattern (?i)all is a case-insensitive substring test
realised by lowercasing the haystack; Python dict indexing of a record is
association-list lookup; Python exceptions (ValueError from int/unpacking,
KeyError from a missing record field, IndexError from list indexing) are the
error values of Option/Except results.
-/

namespace Gh2csv

/-! ## Generic string helpers -/

/-- Whether the first character list is an initial segment of the second. -/
def startsWithChars : List Char → List Char → Bool
  | [], _ => true
  | _ :: _, [] => false
  | c :: cs, d :: ds => c == d && startsWithChars cs ds

/-- Whether the needle occurs as a contiguous run inside the haystack. -/
def occursIn (needle : List Char) : List Char → Bool
  | [] => startsWithChars needle []
  | d :: ds => startsWithChars needle (d :: ds) || occursIn needle ds

/-- Substring test: models re.search with a literal (metacharacter-free)
pattern, returning whether needle occurs inside hay. -/
def strContains (needle hay : String) : Bool :=
  occursIn needle.toList hay.toList

/-- Lowercase a string character by character (ASCII, as Char.toLower). -/
def lowerStr (s : String) : String :=
  String.mk (s.toList.map Char.toLower)

/-- Models ";".join(xs) from the Python source, at the character level. -/
def joinSemi : List String → List Char
  | [] => []
  | [s] => s.toList
  | s :: rest => s.toList ++ ';' :: joinSemi rest

/-- Models re.search("(?i)all", ";".join(xs)): the letters a-l-l occur,
in any letter case, somewhere in the semicolon-join of the list. -/
def matchesAll (xs : List String) : Bool :=
  occursIn "all".toList ((joinSemi xs).map Char.toLower)

/-- Split a character list at every occurrence of the separator character.
Models the comma and dash splitting done with re.split in the source. -/
def splitOnChar (sep : Char) : List Char → List (List Char)
  | [] => [[]]
  | c :: cs =>
    match splitOnChar sep cs with
    | [] => [[c]]
    | p :: ps => if c = sep then [] :: p :: ps else (c :: p) :: ps

/-! ## interpolate_nums (source lines 166-189) -/

/-- Accumulate the value of a digit run; none when a non-digit appears. -/
def digitsToNatAux : List Char → Nat → Option Nat
  | [], acc => some acc
  | d :: ds, acc =>
    if d.isDigit then digitsToNatAux ds (acc * 10 + (d.toNat - 48)) else none

/-- Value of a nonempty all-digit character run; none otherwise. -/
def digitsToNat (ds : List Char) : Option Nat :=
  match ds with
  | [] => none
  | _ => digitsToNatAux ds 0

/-- Models Python int(s): surrounding whitespace is ignored, an optional
single leading sign is accepted, the rest must be a nonempty digit run;
none models the ValueError raised otherwise. -/
def pyInt (cs : List Char) : Option Int :=
  let cs1 := (((cs.dropWhile Char.isWhitespace).reverse).dropWhile
               Char.isWhitespace).reverse
  match cs1 with
  | '-' :: ds => (digitsToNat ds).map (fun n => -(n : Int))
  | '+' :: ds => (digitsToNat ds).map (fun n => (n : Int))
  | ds => (digitsToNat ds).map (fun n => (n : Int))

/-- Models list(range(beg, end + 1)): the inclusive integer range. -/
def rangeOf (b e : Int) : List Int :=
  (List.range (e + 1 - b).toNat).map (fun i => b + (i : Int))

/-- One loop iteration of interpolate_nums: a token containing a dash is
split on the dash (int() discards the whitespace that re.split would have
absorbed) and must yield exactly two integers, expanded to the inclusive
range; any other token is parsed as a single integer. -/
def interpToken (t : String) : Option (List Int) :=
  if '-' ∈ t.toList then
    match (splitOnChar '-' t.toList).mapM pyInt with
    | some [b, e] => some (rangeOf b e)
    | _ => none
  else
    (pyInt t.toList).map (fun n => [n])

/-- The accumulation loop of interpolate_nums over all input tokens. -/
def interpAll : List String → Option (List Int)
  | [] => some []
  | t :: ts =>
    match interpToken t, interpAll ts with
    | some l, some ls => some (l ++ ls)
    | _, _ => none

/-- interpolate_nums: interpolate the token list, remove duplicates and
sort ascending (sorted(set(nums_out)) in the source; dedup then a stable
sort produces the same sorted duplicate-free list). -/
def interpolate_nums (toks : List String) : Option (List Int) :=
  (interpAll toks).map (fun ns => List.insertionSort (· ≤ ·) ns.dedup)

/-! ## The record filter of collect_gh_attrs (source lines 234-302) -/

/-- A normalized record at the point where the filters run: the number,
title, body and state fields of the fetched attribute dict together with
the derived label_names list. -/
structure Attr where
  number : Int
  title : String
  body : String
  state : String
  label_names : List String
deriving DecidableEq

/-- The optional filter specs taken from the YAML filters mapping.
A none field models the corresponding key being absent. -/
structure Filters where
  numbers : Option (List String)
  labels : Option (List String)
  strings : Option (List String)
deriving DecidableEq

/-- Filter 2 body (numbers): pass when the joined list matches all,
otherwise membership of the record number in the interpolated list;
none models the ValueError from a malformed token. -/
def numbersVerdict (ns : List String) (a : Attr) : Option Bool :=
  if matchesAll ns then some true
  else (interpolate_nums ns).map (fun l => decide (a.number ∈ l))

/-- The numbers stage as it acts on the appendable flag: absent key keeps
the flag true, a present key yields the numbers verdict. -/
def numbersGate (flt : Filters) (a : Attr) : Option Bool :=
  match flt.numbers with
  | none => some true
  | some ns => numbersVerdict ns a

/-- Filter 3 inner loop over the record label names: a label whose
dash-prefixed form is configured force-drops and breaks; a configured
label sets the flag to keep and continues. -/
def labelsLoop (ls : List String) : List String → Bool → Bool
  | [], b => b
  | n :: rest, b =>
    if ("-" ++ n) ∈ ls then false
    else if n ∈ ls then labelsLoop ls rest true
    else labelsLoop ls rest b

/-- Filter 3 body (labels): default keep when the joined list matches all,
default drop otherwise, then the label loop. -/
def labelsVerdict (ls : List String) (a : Attr) : Bool :=
  labelsLoop ls a.label_names (matchesAll ls)

/-- The labels stage verdict with an absent key treated as pass. -/
def labelsGateB (flt : Filters) (a : Attr) : Bool :=
  match flt.labels with
  | none => true
  | some ls => labelsVerdict ls a

/-- Whether a configured string token is an exclusion token, that is,
re.search("^-", s) succeeds. -/
def isExclToken (s : String) : Bool :=
  match s.toList with
  | '-' :: _ => true
  | _ => false

/-- Models s.lstrip("-"): remove every leading dash. -/
def stripDashes (s : String) : String :=
  String.mk (s.toList.dropWhile (fun c => c = '-'))

/-- Filter 4 inner loop over the configured strings: an exclusion token
(dash prefix stripped) matching title or body force-drops and breaks; a
matching plain token sets the flag to keep and continues. -/
def stringsLoop (a : Attr) : List String → Bool → Bool
  | [], b => b
  | s :: rest, b =>
    let s2 := if isExclToken s then stripDashes s else s
    if strContains s2 a.title || strContains s2 a.body then
      (if isExclToken s then false else stringsLoop a rest true)
    else stringsLoop a rest b

/-- Filter 4 body (strings): default keep when the joined list matches all,
default drop otherwise, then the string loop. -/
def stringsVerdict (ss : List String) (a : Attr) : Bool :=
  stringsLoop a ss (matchesAll ss)

/-- The strings stage verdict with an absent key treated as pass. -/
def stringsGateB (flt : Filters) (a : Attr) : Bool :=
  match flt.strings with
  | none => true
  | some ss => stringsVerdict ss a

/-- The per-record keep/drop decision of collect_gh_attrs: the appendable
flag starts true; the numbers stage runs if configured; the labels stage
runs only if the flag is still true; the strings stage runs only if the
flag is still true after that; the record is kept when the final flag is
true. The none result models the exception raised by a malformed numbers
token aborting the run. -/
def shouldKeep (flt : Filters) (a : Attr) : Option Bool :=
  (numbersGate flt a).map (fun b1 =>
    let b2 := if b1 then
                match flt.labels with
                | none => b1
                | some ls => labelsVerdict ls a
              else b1
    let b3 := if b2 then
                match flt.strings with
                | none => b2
                | some ss => stringsVerdict ss a
              else b2
    b3)

/-- Modelled from the spec claim wording, for comparison with shouldKeep:
every enabled predicate executes on the record in the fixed order numbers,
labels, strings, each rewriting the shared appendable flag, and the final
decision is the flag value after all enabled predicates have executed. -/
def shouldKeep_specOrder (flt : Filters) (a : Attr) : Option Bool :=
  (numbersGate flt a).map (fun b1 =>
    let b2 := match flt.labels with
              | none => b1
              | some ls => labelsVerdict ls a
    match flt.strings with
    | none => b2
    | some ss => stringsVerdict ss a)

/-! ## The time-series counting loop of run_arepo (source lines 514-522) -/

/-- The counting loop: all three counters start at zero; each record
increments the total, and increments the open and closed counters when
re.search finds "open" and "closed" respectively inside its state. -/
def count_iss (attrs : List Attr) : Nat × Nat × Nat :=
  attrs.foldl
    (fun c a =>
      (c.1 + 1,
       c.2.1 + (if strContains "open" a.state then 1 else 0),
       c.2.2 + (if strContains "closed" a.state then 1 else 0)))
    (0, 0, 0)

/-! ## The time-series append branch of write_to_csv (source lines 403-450) -/

/-- A record at export time: the attribute dict, as an association list
from field name to value (string values, as they end up in the CSV). -/
abbrev RecMap := List (String × String)

/-- Errors the export can raise: a missing record field (the KeyError of
gh_attr[out_col], the MissingFieldError of the design) and an out-of-range
list index while reading back the last persisted row. -/
inductive WriteError where
  | missingField (f : String)
  | indexError
deriving DecidableEq

/-- Record field lookup, as Python dict indexing. -/
def lookupField (rec : RecMap) (k : String) : Option String :=
  match rec with
  | [] => none
  | (k2, v) :: rest => if k2 = k then some v else lookupField rest k

/-- Row assembly: index the record with each configured source field name,
in the configured column order; the first missing field raises. -/
def mk_row (rec : RecMap) : List String → Except WriteError (List String)
  | [] => Except.ok []
  | c :: cs =>
    match lookupField rec c with
    | none => Except.error (WriteError.missingField c)
    | some v =>
      match mk_row rec cs with
      | Except.error e => Except.error e
      | Except.ok row => Except.ok (v :: row)

/-- Models re.search("date|time", s): case-sensitive substring test. -/
def hasDateOrTime (s : String) : Bool :=
  strContains "date" s || strContains "time" s

/-- The idx dict construction loop: enumerate the configured source-field
names and record (name, position) for each name containing "date" or
"time" as a case-sensitive substring. -/
def buildIdxFrom (i : Nat) : List String → List (String × Nat)
  | [] => []
  | s :: rest =>
    if hasDateOrTime s then (s, i) :: buildIdxFrom (i + 1) rest
    else buildIdxFrom (i + 1) rest

/-- The idx dict of write_to_csv, built over the whole column list. -/
def buildIdx (attrs : List String) : List (String × Nat) :=
  buildIdxFrom 0 attrs

/-- Python dict lookup on the association list: a later binding of the
same key overrides an earlier one. -/
def dictGet (k : String) : List (String × Nat) → Option Nat
  | [] => none
  | (s, i) :: d =>
    match dictGet k d with
    | some j => some j
    | none => if s = k then some i else none

/-- Drop leading whitespace. -/
def trimLeftWs (cs : List Char) : List Char :=
  cs.dropWhile Char.isWhitespace

/-- Drop trailing whitespace. -/
def trimRightWs (cs : List Char) : List Char :=
  (cs.reverse.dropWhile Char.isWhitespace).reverse

/-- Trim the non-first parts produced by the comma split: every part loses
the whitespace adjacent to its delimiting commas, so a middle part is
trimmed on both sides and the final part only on its left. -/
def innerTrimTail : List (List Char) → List (List Char)
  | [] => []
  | [p] => [trimLeftWs p]
  | p :: ps => trimLeftWs (trimRightWs p) :: innerTrimTail ps

/-- Trim whitespace adjacent to the commas of a comma split: the first
part is trimmed only on its right (and an only part not at all). -/
def innerTrim : List (List Char) → List (List Char)
  | [] => []
  | [p] => [p]
  | p :: ps => trimRightWs p :: innerTrimTail ps

/-- Models re.split(r"\s*,\s*", line): split a line at commas, absorbing
the whitespace around each comma; whitespace at the ends of the whole
line, a trailing newline included, stays attached. -/
def split_csv_line (line : String) : List String :=
  (innerTrim (splitOnChar ',' line.toList)).map String.mk

/-- Read one recovered value out of the split last row: an untracked
column yields the empty-string default the source initialises, a tracked
column indexes the split row (an out-of-range index raises). -/
def recoverVal (parts : List String) : Option Nat → Except WriteError String
  | none => Except.ok ""
  | some i =>
    match parts.get? i with
    | some v => Except.ok v
    | none => Except.error WriteError.indexError

/-- Recover (last_date, last_time) from the last line of the existing
destination: the idx dict is built from the configured source-field names
and then the exact keys "date" and "time" are looked up in it. -/
def recoverLastVals (attrs : List String) (lastLine : String) :
    Except WriteError (String × String) :=
  match recoverVal (split_csv_line lastLine) (dictGet "date" (buildIdx attrs)) with
  | Except.error e => Except.error e
  | Except.ok ld =>
    match recoverVal (split_csv_line lastLine) (dictGet "time" (buildIdx attrs)) with
    | Except.error e => Except.error e
    | Except.ok lt => Except.ok (ld, lt)

/-- Row value at a tracked column position; an untracked column never has
its row value inspected, modelled as the falsy empty string. -/
def valAt (row : List String) : Option Nat → String
  | none => ""
  | some i => row.getD i ""

/-- The per-row skip decision of the append loop: a value participates
only when both the recovered last value and the row value are truthy
(nonempty); with both date and time participating the row is skipped only
when both equal the last values, with exactly one participating that one
value decides, and with neither the row is written. -/
def skipRow (last_date last_time rd rt : String) : Bool :=
  let is_date := !(decide (last_date = "")) && !(decide (rd = ""))
  let is_same_date := is_date && decide (last_date = rd)
  let is_time := !(decide (last_time = "")) && !(decide (rt = ""))
  let is_same_time := is_time && decide (last_time = rt)
  if is_date && is_time then is_same_date && is_same_time
  else if is_date && !is_time then is_same_date
  else if is_time && !is_date then is_same_time
  else false

/-- The record loop of write_to_csv in append mode: assemble each row in
order and keep the rows the skip decision lets through. -/
def appendLoop (attrs : List String) (ld lt : String) (dIdx tIdx : Option Nat) :
    List RecMap → Except WriteError (List (List String))
  | [] => Except.ok []
  | rec :: recs =>
    match mk_row rec attrs with
    | Except.error e => Except.error e
    | Except.ok row =>
      match appendLoop attrs ld lt dIdx tIdx recs with
      | Except.error e => Except.error e
      | Except.ok rest =>
        if skipRow ld lt (valAt row dIdx) (valAt row tIdx) then Except.ok rest
        else Except.ok (row :: rest)

/-- The time-series append branch of write_to_csv with an existing
destination: recover the last persisted date/time values from the final
line of the file, then run the append loop; the result is the list of
rows appended to the file. -/
def tsAppendRows (attrs : List String) (lastLine : String) (recs : List RecMap) :
    Except WriteError (List (List String)) :=
  match recoverLastVals attrs lastLine with
  | Except.error e => Except.error e
  | Except.ok (ld, lt) =>
    appendLoop attrs ld lt (dictGet "date" (buildIdx attrs))
      (dictGet "time" (buildIdx attrs)) recs

/-- Modelled from the spec claim wording, for comparison with the code:
the tracked date (time) column is the first configured column whose
source-field name contains "date" ("time") as a case-insensitive
substring. -/
def trackedIdxCI (needle : String) (attrs : List String) : Option Nat :=
  attrs.findIdx? (fun s => strContains (lowerStr needle) (lowerStr s))

/-- Modelled from the spec claim wording, for comparison with
recoverLastVals: recover last_date/last_time from the case-insensitively
matched tracked columns. -/
def recoverLastVals_specCI (attrs : List String) (lastLine : String) :
    Except WriteError (String × String) :=
  match recoverVal (split_csv_line lastLine) (trackedIdxCI "date" attrs) with
  | Except.error e => Except.error e
  | Except.ok ld =>
    match recoverVal (split_csv_line lastLine) (trackedIdxCI "time" attrs) with
    | Except.error e => Except.error e
    | Except.ok lt => Except.ok (ld, lt)

/-- Position of the last configured column whose source-field name equals
the key exactly, counting from the given start index. -/
def lastExactIdxFrom (k : String) (i : Nat) : List String → Option Nat
  | [] => none
  | s :: rest =>
    match lastExactIdxFrom k (i + 1) rest with
    | some j => some j
    | none => if s = k then some i else none

/-- Position of the last configured column whose source-field name equals
the key exactly. -/
def lastExactIdx (k : String) (attrs : List String) : Option Nat :=
  lastExactIdxFrom k 0 attrs

/-- Recovery restated through exact column names: what the code actually
tracks, used to state the amended column-tracking claim. -/
def recoverLastVals_exactName (attrs : List String) (lastLine : String) :
    Except WriteError (String × String) :=
  match recoverVal (split_csv_line lastLine) (lastExactIdx "date" attrs) with
  | Except.error e => Except.error e
  | Except.ok ld =>
    match recoverVal (split_csv_line lastLine) (lastExactIdx "time" attrs) with
    | Except.error e => Except.error e
    | Except.ok lt => Except.ok (ld, lt)

/-- Join fields with commas: the shape of a persisted CSV line, used to
state what the split recovers from a line the exporter itself wrote. -/
def joinComma : List (List Char) → List Char
  | [] => []
  | [p] => p
  | p :: ps => p ++ ',' :: joinComma ps

/-! ## Helper lemmas and claim theorems -/

theorem gate_body_eq (b1 lv sv : Bool) :
    (let b2 := if b1 then lv else b1
     if b2 then sv else b2) = (b1 && lv && sv) := by
  cases b1 <;> cases lv <;> cases sv <;> rfl

theorem shouldKeep_eq_gates (flt : Filters) (a : Attr) :
    shouldKeep flt a =
      (numbersGate flt a).map
        (fun b1 => b1 && labelsGateB flt a && stringsGateB flt a) := by
  unfold shouldKeep labelsGateB stringsGateB
  cases numbersGate flt a with
  | none => rfl
  | some b1 =>
    cases flt.labels <;> cases flt.strings <;>
      simp only [Option.map_some'] <;> cases b1 <;>
      first
        | rfl
        | (cases hv : labelsVerdict _ a <;> simp [hv])

theorem labelsLoop_excluded (ls : List String) (names : List String) :
    ∀ b : Bool, (∃ n, n ∈ names ∧ ("-" ++ n) ∈ ls) → labelsLoop ls names b = false := by
  induction names with
  | nil => intro b h; simp at h
  | cons n rest ih =>
    intro b h
    unfold labelsLoop
    by_cases hx : ("-" ++ n) ∈ ls
    · simp [hx]
    · have h2 : ∃ m, m ∈ rest ∧ ("-" ++ m) ∈ ls := by
        obtain ⟨m, hm, hmx⟩ := h
        rcases List.mem_cons.mp hm with h3 | h3
        · exact absurd (h3 ▸ hmx) hx
        · exact ⟨m, h3, hmx⟩
      by_cases hn : n ∈ ls
      · simp [hx, hn, ih true h2]
      · simp [hx, hn, ih b h2]

theorem stringsLoop_excluded (a : Attr) (ss : List String) :
    ∀ b : Bool,
      (∃ s, s ∈ ss ∧ isExclToken s = true ∧
        (strContains (stripDashes s) a.title || strContains (stripDashes s) a.body) = true) →
      stringsLoop a ss b = false := by
  induction ss with
  | nil => intro b h; simp at h
  | cons s rest ih =>
    intro b h
    unfold stringsLoop
    by_cases he : isExclToken s = true
    · by_cases hm : (strContains (stripDashes s) a.title
          || strContains (stripDashes s) a.body) = true
      · simp [he, hm]
      · have h2 : ∃ t, t ∈ rest ∧ isExclToken t = true ∧
            (strContains (stripDashes t) a.title || strContains (stripDashes t) a.body) = true := by
          obtain ⟨t, ht, hte, htm⟩ := h
          rcases List.mem_cons.mp ht with h3 | h3
          · exact absurd (h3 ▸ htm) hm
          · exact ⟨t, h3, hte, htm⟩
        simp [he, hm, ih b h2]
    · have h2 : ∃ t, t ∈ rest ∧ isExclToken t = true ∧
          (strContains (stripDashes t) a.title || strContains (stripDashes t) a.body) = true := by
        obtain ⟨t, ht, hte, htm⟩ := h
        rcases List.mem_cons.mp ht with h3 | h3
        · exact absurd (h3 ▸ hte) he
        · exact ⟨t, h3, hte, htm⟩
      by_cases hm : (strContains s a.title || strContains s a.body) = true
      · simp [he, hm, ih true h2]
      · simp [he, hm, ih b h2]
/-- C1: corrected. The enabled predicates are attempted in the fixed order
numbers, labels, strings, but each of the labels and strings stages runs
only while the shared appendable flag is still true; the final keep/drop
decision therefore equals the conjunction of the enabled stage verdicts
rather than the flag left by an unconditional run of every stage. -/
theorem filters_guarded_conjunction :
    ∀ (flt : Filters) (a : Attr),
      shouldKeep flt a =
        (numbersGate flt a).map
          (fun b1 => b1 && labelsGateB flt a && stringsGateB flt a) :=
  shouldKeep_eq_gates

/-- C1 counterexample: with numbers ["5"] and labels ["all"], a record
numbered 7 is dropped by the code because the labels stage never runs,
while the claimed run-every-enabled-predicate semantics would let the
labels stage rewrite the flag to keep. -/
theorem filters_run_order_counterexample :
    shouldKeep ⟨some ["5"], some ["all"], none⟩ ⟨7, "", "", "", []⟩ = some false
    ∧ shouldKeep_specOrder ⟨some ["5"], some ["all"], none⟩ ⟨7, "", "", "", []⟩ = some true :=
  ⟨by decide, by decide⟩

/-- C4: confirmed. Whenever the labels predicate runs (labels configured
and the flag still true after the numbers stage), a record one of whose
label names appears dash-prefixed in the configured list is dropped, even
when another of its labels matches an inclusion entry; the two concrete
spec examples behave as stated. -/
theorem labels_exclusion_drops :
    (∀ (flt : Filters) (a : Attr) (ls : List String),
       flt.labels = some ls →
       numbersGate flt a = some true →
       (∃ n, n ∈ a.label_names ∧ ("-" ++ n) ∈ ls) →
       shouldKeep flt a = some false)
    ∧ shouldKeep ⟨none, some ["bug", "-wontfix"], none⟩
        ⟨1, "", "", "open", ["bug", "wontfix"]⟩ = some false
    ∧ shouldKeep ⟨none, some ["bug"], none⟩
        ⟨1, "", "", "open", ["bug", "wontfix"]⟩ = some true := by
  refine ⟨?_, by decide, by decide⟩
  intro flt a ls hl hn hex
  rw [shouldKeep_eq_gates, hn]
  have hv : labelsGateB flt a = false := by
    unfold labelsGateB
    rw [hl]
    unfold labelsVerdict
    exact labelsLoop_excluded ls a.label_names (matchesAll ls) hex
  simp [hv]

theorem labels_exclusion_drops_witness :
    shouldKeep ⟨none, some ["-a"], none⟩ ⟨1, "", "", "", ["a"]⟩ = some false :=
  labels_exclusion_drops.1 ⟨none, some ["-a"], none⟩ ⟨1, "", "", "", ["a"]⟩ ["-a"]
    rfl rfl ⟨"a", by decide, by decide⟩

/-- C5: confirmed. Whenever the strings predicate runs (strings configured
and the flag still true after the numbers and labels stages), a record
matched by a dash-prefixed token (prefix stripped before matching against
title or body) is dropped, regardless of matching inclusion tokens; the
concrete spec example behaves as stated. -/
theorem strings_exclusion_drops :
    (∀ (flt : Filters) (a : Attr) (ss : List String),
       flt.strings = some ss →
       numbersGate flt a = some true →
       labelsGateB flt a = true →
       (∃ s, s ∈ ss ∧ isExclToken s = true ∧
         (strContains (stripDashes s) a.title || strContains (stripDashes s) a.body) = true) →
       shouldKeep flt a = some false)
    ∧ shouldKeep ⟨none, none, some ["-BT", "DCPS"]⟩
        ⟨1, "xx DCPS yy", "zz BT ww", "open", []⟩ = some false := by
  refine ⟨?_, by decide⟩
  intro flt a ss hs hn hlb hex
  rw [shouldKeep_eq_gates, hn]
  have hv : stringsGateB flt a = false := by
    unfold stringsGateB
    rw [hs]
    unfold stringsVerdict
    exact stringsLoop_excluded a ss (matchesAll ss) hex
  simp [hv]

theorem strings_exclusion_drops_witness :
    shouldKeep ⟨none, none, some ["-x"]⟩ ⟨1, "x", "", "", []⟩ = some false :=
  strings_exclusion_drops.1 ⟨none, none, some ["-x"]⟩ ⟨1, "x", "", "", []⟩ ["-x"]
    rfl rfl rfl ⟨"-x", by decide, by decide, by decide⟩
theorem interpAll_mem :
    ∀ (toks : List String) (ns : List Int), interpAll toks = some ns →
      ∀ n : Int, (n ∈ ns ↔ ∃ t, t ∈ toks ∧ ∃ l, interpToken t = some l ∧ n ∈ l) := by
  intro toks
  induction toks with
  | nil =>
    intro ns h n
    cases h
    simp
  | cons t ts ih =>
    intro ns h n
    unfold interpAll at h
    cases h1 : interpToken t with
    | none => rw [h1] at h; cases h
    | some l =>
      cases h2 : interpAll ts with
      | none => rw [h1, h2] at h; cases h
      | some ls =>
        rw [h1, h2] at h
        cases h
        constructor
        · intro hn
          rcases List.mem_append.mp hn with hl | hls
          · exact ⟨t, List.mem_cons_self t ts, l, h1, hl⟩
          · obtain ⟨t2, ht2, l2, hl2, hn2⟩ := (ih ls h2 n).mp hls
            exact ⟨t2, List.mem_cons_of_mem t ht2, l2, hl2, hn2⟩
        · intro hex
          obtain ⟨t2, ht2, l2, hl2, hn2⟩ := hex
          rcases List.mem_cons.mp ht2 with h3 | h3
          · subst h3
            rw [h1] at hl2
            cases hl2
            exact List.mem_append.mpr (Or.inl hn2)
          · exact List.mem_append.mpr (Or.inr ((ih ls h2 n).mpr ⟨t2, h3, l2, hl2, hn2⟩))

theorem interpolate_result_shape (toks : List String) (res : List Int)
    (h : interpolate_nums toks = some res) :
    ∃ ns, interpAll toks = some ns ∧ res = List.insertionSort (· ≤ ·) ns.dedup := by
  unfold interpolate_nums at h
  cases h2 : interpAll toks with
  | none => rw [h2] at h; cases h
  | some ns =>
    rw [h2] at h
    cases h
    exact ⟨ns, rfl, rfl⟩

theorem interpolate_sorted (toks : List String) (res : List Int)
    (h : interpolate_nums toks = some res) : List.Sorted (· < ·) res := by
  obtain ⟨ns, _, hres⟩ := interpolate_result_shape toks res h
  subst hres
  have hsorted : List.Sorted (· ≤ ·) (List.insertionSort (· ≤ ·) ns.dedup) :=
    List.sorted_insertionSort (· ≤ ·) ns.dedup
  have hnodup : (List.insertionSort (· ≤ ·) ns.dedup).Nodup :=
    (List.perm_insertionSort (· ≤ ·) ns.dedup).nodup_iff.mpr (List.nodup_dedup ns)
  exact (hsorted.and hnodup).imp (fun hab => lt_of_le_of_ne hab.1 hab.2)

theorem interpolate_mem (toks : List String) (res : List Int)
    (h : interpolate_nums toks = some res) :
    ∀ n : Int, (n ∈ res ↔ ∃ t, t ∈ toks ∧ ∃ l, interpToken t = some l ∧ n ∈ l) := by
  obtain ⟨ns, hns, hres⟩ := interpolate_result_shape toks res h
  subst hres
  intro n
  rw [List.mem_insertionSort, List.mem_dedup]
  exact interpAll_mem toks ns hns n

/-- C6: confirmed. A dash token expands to the inclusive range, any other
token parses as a single integer; the result of interpolate_nums is
strictly ascending (hence duplicate-free), its members are exactly the
integers contributed by the tokens, and the concrete spec example parses
to the ordered list [1, 3, 4, 5]. -/
theorem interpolate_parse :
    interpolate_nums ["1", "3-5", "5"] = some [1, 3, 4, 5]
    ∧ interpToken "3-5" = some [3, 4, 5]
    ∧ interpToken "7" = some [7]
    ∧ (∀ (toks : List String) (res : List Int),
        interpolate_nums toks = some res → List.Sorted (· < ·) res)
    ∧ (∀ (toks : List String) (res : List Int),
        interpolate_nums toks = some res →
        ∀ n : Int, (n ∈ res ↔ ∃ t, t ∈ toks ∧ ∃ l, interpToken t = some l ∧ n ∈ l)) :=
  ⟨by decide, by decide, by decide, interpolate_sorted, interpolate_mem⟩

theorem interpolate_parse_witness :
    List.Sorted (fun a b : Int => a < b) [1, 3, 4, 5] :=
  interpolate_parse.2.2.2.1 ["1", "3-5", "5"] [1, 3, 4, 5] (by decide)

/-- C10: confirmed. A descending range token raises nothing and
contributes nothing: range expansion with begin above end is empty, and
interpolate_nums simply drops such a token. -/
theorem descending_range_empty :
    (∀ b e : Int, e < b → rangeOf b e = [])
    ∧ interpolate_nums ["5-3"] = some []
    ∧ interpolate_nums ["1", "5-3", "2"] = some [1, 2] := by
  refine ⟨?_, by decide, by decide⟩
  intro b e h
  unfold rangeOf
  have h0 : (e + 1 - b).toNat = 0 := by omega
  rw [h0]
  rfl

theorem descending_range_empty_witness : rangeOf 5 3 = [] :=
  descending_range_empty.1 5 3 (by decide)

theorem count_iss_foldl (f : Nat × Nat × Nat → Attr → Nat × Nat × Nat)
    (hf : f = fun c a =>
      (c.1 + 1,
       c.2.1 + (if strContains "open" a.state then 1 else 0),
       c.2.2 + (if strContains "closed" a.state then 1 else 0))) :
    ∀ (l : List Attr) (c : Nat × Nat × Nat),
      List.foldl f c l =
        (c.1 + l.length,
         c.2.1 + l.countP (fun a => strContains "open" a.state),
         c.2.2 + l.countP (fun a => strContains "closed" a.state)) := by
  intro l
  induction l with
  | nil => intro c; simp
  | cons a l ih =>
    intro c
    rw [List.foldl_cons, ih]
    subst hf
    by_cases h : strContains "open" a.state <;>
      by_cases h2 : strContains "closed" a.state <;>
        simp [List.countP_cons, h, h2, Prod.ext_iff] <;> omega

/-- C7: confirmed. The time-series summary counts every record in
num_iss_all and counts a record open or closed by substring search of its
state, not by equality: the spec example yields (3, 2, 1) and a state
"reopened" is counted as open. -/
theorem time_series_counts :
    (∀ attrs : List Attr,
       count_iss attrs =
         (attrs.length,
          attrs.countP (fun a => strContains "open" a.state),
          attrs.countP (fun a => strContains "closed" a.state)))
    ∧ count_iss [⟨1, "", "", "open", []⟩, ⟨2, "", "", "open", []⟩, ⟨3, "", "", "closed", []⟩]
        = (3, 2, 1)
    ∧ count_iss [⟨1, "", "", "reopened", []⟩] = (1, 1, 0)
    ∧ strContains "open" "reopened" = true
    ∧ "reopened" ≠ "open" := by
  refine ⟨?_, by decide, by decide, by decide, by decide⟩
  intro attrs
  unfold count_iss
  rw [count_iss_foldl _ rfl attrs (0, 0, 0)]
  simp

/-- C8: confirmed. A row is assembled by indexing the record with each
configured source field in the configured column order, and any missing
configured field makes row assembly fail with a missing-field error
instead of producing a defaulted value. -/
theorem mk_row_indexing :
    ∀ (rec : RecMap) (attrs : List String),
      ((∀ c, c ∈ attrs → (lookupField rec c).isSome = true) →
        mk_row rec attrs = Except.ok (attrs.map (fun c => (lookupField rec c).getD "")))
      ∧ ((∃ c, c ∈ attrs ∧ lookupField rec c = none) →
        ∃ f, mk_row rec attrs = Except.error (WriteError.missingField f)) := by
  intro rec attrs
  induction attrs with
  | nil =>
    refine ⟨fun _ => rfl, fun h => ?_⟩
    simp at h
  | cons c cs ih =>
    constructor
    · intro h
      have hc : (lookupField rec c).isSome = true := h c (List.mem_cons_self c cs)
      cases hv : lookupField rec c with
      | none => rw [hv] at hc; cases hc
      | some v =>
        unfold mk_row
        rw [hv, ih.1 (fun c2 hc2 => h c2 (List.mem_cons_of_mem c hc2))]
        simp [hv]
    · intro h
      cases hv : lookupField rec c with
      | none =>
        refine ⟨c, ?_⟩
        unfold mk_row
        rw [hv]
      | some v =>
        have h2 : ∃ c2, c2 ∈ cs ∧ lookupField rec c2 = none := by
          obtain ⟨c2, hc2, hn⟩ := h
          rcases List.mem_cons.mp hc2 with h3 | h3
          · subst h3; rw [hv] at hn; cases hn
          · exact ⟨c2, h3, hn⟩
        obtain ⟨f, hf⟩ := ih.2 h2
        refine ⟨f, ?_⟩
        unfold mk_row
        rw [hv, hf]

theorem mk_row_indexing_witness :
    mk_row [("a", "1"), ("b", "2")] ["b", "a"] = Except.ok ["2", "1"]
    ∧ (∃ f, mk_row [("a", "1")] ["a", "c"] = Except.error (WriteError.missingField f)) :=
  ⟨(mk_row_indexing [("a", "1"), ("b", "2")] ["b", "a"]).1 (by decide),
   (mk_row_indexing [("a", "1")] ["a", "c"]).2 ⟨"c", by decide, by decide⟩⟩
/-- C2: corrected. The skip decision follows the configured-column cases
only when the participation of a column also accounts for the row value
being nonempty: a tracked column with an empty row value drops out of the
comparison, so with both columns tracked a row is skipped exactly when
every tracked column whose row value is nonempty matches, and a row with
matching date but empty time value is skipped even though its time
differs from the last persisted one; with only a date column tracked the
spec example skips the repeated date and appends the new one. -/
theorem skip_decision_cases :
    (∀ ld lt rd rt : String,
       (ld ≠ "" → rd ≠ "" → lt ≠ "" → rt ≠ "" →
         (skipRow ld lt rd rt = true ↔ (ld = rd ∧ lt = rt)))
       ∧ ((lt = "" ∨ rt = "") → ld ≠ "" →
         (skipRow ld lt rd rt = true ↔ (rd ≠ "" ∧ ld = rd)))
       ∧ ((ld = "" ∨ rd = "") → lt ≠ "" →
         (skipRow ld lt rd rt = true ↔ (rt ≠ "" ∧ lt = rt)))
       ∧ (ld = "" → lt = "" → skipRow ld lt rd rt = false))
    ∧ tsAppendRows ["date", "num"] "2024/01/01,3\n"
        [[("date", "2024/01/01"), ("num", "4")], [("date", "2024/01/02"), ("num", "5")]]
      = Except.ok [["2024/01/02", "5"]] := by
  refine ⟨?_, by rfl⟩
  intro ld lt rd rt
  refine ⟨?_, ?_, ?_, ?_⟩
  · intro h1 h2 h3 h4
    simp [skipRow, h1, h2, h3, h4]
  · intro h0 h1
    by_cases hrd : rd = ""
    · rcases h0 with h0 | h0 <;> simp [skipRow, h0, h1, hrd]
    · rcases h0 with h0 | h0 <;> simp [skipRow, h0, h1, hrd]
  · intro h0 h3
    by_cases hrt : rt = ""
    · rcases h0 with h0 | h0 <;> simp [skipRow, h0, h3, hrt]
    · rcases h0 with h0 | h0 <;> simp [skipRow, h0, h3, hrt]
  · intro h1 h3
    simp [skipRow, h1, h3]

theorem skip_decision_cases_witness :
    skipRow "2024/01/01" "12:00:00" "2024/01/01" "12:00:00" = true :=
  ((skip_decision_cases.1 "2024/01/01" "12:00:00" "2024/01/01" "12:00:00").1
    (by decide) (by decide) (by decide) (by decide)).mpr ⟨rfl, rfl⟩

/-- C2 counterexample: with both a date and a time column tracked, a row
whose date matches the last persisted date but whose time value is empty
(and so differs from the last persisted time) is nevertheless skipped. -/
theorem skip_both_tracked_counterexample :
    tsAppendRows ["date", "time", "n"] "2024/01/01,12:00:00,5\n"
      [[("date", "2024/01/01"), ("time", ""), ("n", "7")]] = Except.ok []
    ∧ ("" : String) ≠ "12:00:00" :=
  ⟨by rfl, by decide⟩

theorem dictGet_buildIdxFrom (k : String) (hk : hasDateOrTime k = true) :
    ∀ (attrs : List String) (i : Nat),
      dictGet k (buildIdxFrom i attrs) = lastExactIdxFrom k i attrs := by
  intro attrs
  induction attrs with
  | nil => intro i; rfl
  | cons s rest ih =>
    intro i
    unfold buildIdxFrom lastExactIdxFrom
    by_cases hs : hasDateOrTime s = true
    · rw [if_pos hs]
      unfold dictGet
      rw [ih (i + 1)]
    · rw [if_neg hs, ih (i + 1)]
      have hne : s ≠ k := fun he => hs (he ▸ hk)
      cases h2 : lastExactIdxFrom k (i + 1) rest with
      | some j => rfl
      | none => simp [hne]

/-- C3: corrected. The exporter reads only the file last line, but the
recovered last_date/last_time come only from configured columns whose
source-field name is exactly "date" or exactly "time" (the last such
occurrence winning): the index is populated by a case-sensitive
"date"/"time" substring scan, yet recovery looks up the exact keys, so a
column such as created_date is indexed but never read back. -/
theorem recovery_exact_names :
    ∀ (attrs : List String) (lastLine : String),
      recoverLastVals attrs lastLine = recoverLastVals_exactName attrs lastLine := by
  intro attrs lastLine
  unfold recoverLastVals recoverLastVals_exactName buildIdx lastExactIdx
  rw [dictGet_buildIdxFrom "date" (by decide), dictGet_buildIdxFrom "time" (by decide)]

/-- C3 counterexample: a column named created_date contains "date" as a
substring, so the claim would have it tracked and its last value
recovered, but the code recovers nothing from it. -/
theorem recovery_substring_counterexample :
    recoverLastVals ["created_date", "n"] "2024/01/01,5\n" = Except.ok ("", "")
    ∧ recoverLastVals_specCI ["created_date", "n"] "2024/01/01,5\n"
        = Except.ok ("2024/01/01", "")
    ∧ ("" : String) ≠ "2024/01/01" :=
  ⟨by rfl, by rfl, by decide⟩
theorem splitOnChar_ne_nil (sep : Char) : ∀ cs : List Char, splitOnChar sep cs ≠ [] := by
  intro cs
  cases cs with
  | nil => simp [splitOnChar]
  | cons c cs =>
    unfold splitOnChar
    cases h : splitOnChar sep cs with
    | nil => simp
    | cons p ps => by_cases hc : c = sep <;> simp [hc]

theorem splitOnChar_no_sep (sep : Char) :
    ∀ cs : List Char, sep ∉ cs → splitOnChar sep cs = [cs] := by
  intro cs
  induction cs with
  | nil => intro _; rfl
  | cons c cs ih =>
    intro h
    have hc : ¬(c = sep) := fun he => h (he ▸ List.mem_cons_self c cs)
    have hcs : sep ∉ cs := fun he => h (List.mem_cons_of_mem c he)
    unfold splitOnChar
    rw [ih hcs]
    simp [hc]

theorem splitOnChar_cons (sep c : Char) (cs : List Char) :
    splitOnChar sep (c :: cs) =
      match splitOnChar sep cs with
      | [] => [[c]]
      | p :: ps => if c = sep then [] :: p :: ps else (c :: p) :: ps := rfl

theorem splitOnChar_append (sep : Char) :
    ∀ (p rest : List Char), sep ∉ p →
      splitOnChar sep (p ++ sep :: rest) = p :: splitOnChar sep rest := by
  intro p
  induction p with
  | nil =>
    intro rest _
    show splitOnChar sep (sep :: rest) = [] :: splitOnChar sep rest
    rw [splitOnChar_cons]
    cases h : splitOnChar sep rest with
    | nil => exact absurd h (splitOnChar_ne_nil sep rest)
    | cons q qs => simp
  | cons c p ih =>
    intro rest h
    have hc : ¬(c = sep) := fun he => h (he ▸ List.mem_cons_self c p)
    have hp : sep ∉ p := fun he => h (List.mem_cons_of_mem c he)
    show splitOnChar sep (c :: (p ++ sep :: rest)) = (c :: p) :: splitOnChar sep rest
    rw [splitOnChar_cons, ih rest hp]
    simp [hc]

theorem splitOnChar_joinComma :
    ∀ ps : List (List Char), ps ≠ [] → (∀ p, p ∈ ps → ',' ∉ p) →
      splitOnChar ',' (joinComma ps) = ps := by
  intro ps
  induction ps with
  | nil => intro h; exact absurd rfl h
  | cons p ps ih =>
    intro _ h
    cases ps with
    | nil => exact splitOnChar_no_sep ',' p (h p (List.mem_cons_self p []))
    | cons q qs =>
      show splitOnChar ',' (p ++ ',' :: joinComma (q :: qs)) = p :: (q :: qs)
      rw [splitOnChar_append ',' p (joinComma (q :: qs)) (h p (List.mem_cons_self p (q :: qs)))]
      rw [ih (by simp) (fun r hr => h r (List.mem_cons_of_mem p hr))]

theorem dropWhile_none (q : Char → Bool) :
    ∀ cs : List Char, (∀ c, c ∈ cs → q c = false) → cs.dropWhile q = cs := by
  intro cs
  cases cs with
  | nil => intro _; rfl
  | cons c cs =>
    intro h
    have hc : q c = false := h c (List.mem_cons_self c cs)
    simp [List.dropWhile_cons, hc]

theorem trimRightWs_clean (p : List Char)
    (h : ∀ c, c ∈ p → c.isWhitespace = false) : trimRightWs p = p := by
  unfold trimRightWs
  rw [dropWhile_none Char.isWhitespace p.reverse
    (fun c hc => h c (List.mem_reverse.mp hc))]
  exact List.reverse_reverse p

theorem trimLeftWs_clean (p : List Char)
    (h : ∀ c, c ∈ p → c.isWhitespace = false) : trimLeftWs p = p :=
  dropWhile_none Char.isWhitespace p h

theorem innerTrimTail_clean :
    ∀ (fs : List (List Char)) (q : List Char),
      (∀ p, p ∈ fs → ∀ c, c ∈ p → c.isWhitespace = false) →
      trimLeftWs q = q →
      innerTrimTail (fs ++ [q]) = fs ++ [q] := by
  intro fs
  induction fs with
  | nil =>
    intro q _ hq
    show [trimLeftWs q] = [q]
    rw [hq]
  | cons p fs ih =>
    intro q h hq
    have hp : ∀ c, c ∈ p → c.isWhitespace = false := h p (List.mem_cons_self p fs)
    cases hfs : fs ++ [q] with
    | nil => exact absurd hfs (by simp)
    | cons r rs =>
      show innerTrimTail (p :: (fs ++ [q])) = p :: (fs ++ [q])
      rw [hfs]
      show trimLeftWs (trimRightWs p) :: innerTrimTail (r :: rs) = p :: (r :: rs)
      rw [trimRightWs_clean p hp, trimLeftWs_clean p hp, ← hfs,
        ih q (fun r2 hr2 => h r2 (List.mem_cons_of_mem p hr2)) hq, hfs]

theorem innerTrim_clean :
    ∀ (fs : List (List Char)) (q : List Char),
      (∀ p, p ∈ fs → ∀ c, c ∈ p → c.isWhitespace = false) →
      trimLeftWs q = q →
      innerTrim (fs ++ [q]) = fs ++ [q] := by
  intro fs q h hq
  cases fs with
  | nil => rfl
  | cons p fs =>
    have hp : ∀ c, c ∈ p → c.isWhitespace = false := h p (List.mem_cons_self p fs)
    cases hfs : fs ++ [q] with
    | nil => exact absurd hfs (by simp)
    | cons r rs =>
      show innerTrim (p :: (fs ++ [q])) = p :: (fs ++ [q])
      rw [hfs]
      show trimRightWs p :: innerTrimTail (r :: rs) = p :: (r :: rs)
      rw [trimRightWs_clean p hp, ← hfs,
        innerTrimTail_clean fs q (fun r2 hr2 => h r2 (List.mem_cons_of_mem p hr2)) hq, hfs]
theorem split_line_of_joined (fs : List (List Char)) (g : List Char)
    (hfs : ∀ p, p ∈ fs → (',' ∉ p ∧ ∀ c, c ∈ p → c.isWhitespace = false))
    (hgc : ',' ∉ g) (hgw : ∀ c, c ∈ g → c.isWhitespace = false) (hg : g ≠ []) :
    split_csv_line (String.mk (joinComma (fs ++ [g ++ ['\n']])))
      = (fs ++ [g ++ ['\n']]).map String.mk := by
  unfold split_csv_line
  have h1 : (String.mk (joinComma (fs ++ [g ++ ['\n']]))).toList
      = joinComma (fs ++ [g ++ ['\n']]) := rfl
  rw [h1]
  have hcs : ∀ p, p ∈ fs ++ [g ++ ['\n']] → ',' ∉ p := by
    intro p hp
    rcases List.mem_append.mp hp with h2 | h2
    · exact (hfs p h2).1
    · have h3 : p = g ++ ['\n'] := by simpa using h2
      subst h3
      intro h4
      rcases List.mem_append.mp h4 with h5 | h5
      · exact hgc h5
      · simp at h5
  have htrim : trimLeftWs (g ++ ['\n']) = g ++ ['\n'] := by
    cases g with
    | nil => exact absurd rfl hg
    | cons c g2 =>
      have hc : c.isWhitespace = false := hgw c (List.mem_cons_self c g2)
      show List.dropWhile Char.isWhitespace (c :: (g2 ++ ['\n'])) = c :: (g2 ++ ['\n'])
      simp [List.dropWhile_cons, hc]
  rw [splitOnChar_joinComma (fs ++ [g ++ ['\n']]) (by simp) hcs]
  rw [innerTrim_clean fs (g ++ ['\n']) (fun p hp => (hfs p hp).2) htrim]

/-- C9: confirmed. The last-line comma split keeps the trailing newline
attached to the final field, so when the tracked date or time column is
the last configured column the recovered last value ends in the newline
and can never equal a row value free of newlines; concretely, with
columns [n, date] a row repeating the persisted date is still appended. -/
theorem last_column_newline :
    (∀ (fs : List (List Char)) (g : List Char) (v : List Char),
       (∀ p, p ∈ fs → (',' ∉ p ∧ ∀ c, c ∈ p → c.isWhitespace = false)) →
       ',' ∉ g → (∀ c, c ∈ g → c.isWhitespace = false) → g ≠ [] →
       '\n' ∉ v →
       split_csv_line (String.mk (joinComma (fs ++ [g ++ ['\n']])))
           = (fs ++ [g ++ ['\n']]).map String.mk
         ∧ (split_csv_line (String.mk (joinComma (fs ++ [g ++ ['\n']])))).getD fs.length ""
             ≠ String.mk v)
    ∧ recoverLastVals ["n", "date"] "5,2024/01/01\n" = Except.ok ("2024/01/01\n", "")
    ∧ tsAppendRows ["n", "date"] "5,2024/01/01\n" [[("n", "6"), ("date", "2024/01/01")]]
        = Except.ok [["6", "2024/01/01"]] := by
  refine ⟨?_, by rfl, by rfl⟩
  intro fs g v hfs hgc hgw hg hv
  have hsplit := split_line_of_joined fs g hfs hgc hgw hg
  refine ⟨hsplit, ?_⟩
  rw [hsplit]
  simp only [List.map_append, List.map_cons, List.map_nil]
  have hlen : (fs.map String.mk).length = fs.length := List.length_map fs String.mk
  have hget : (fs.map String.mk ++ [String.mk (g ++ ['\n'])])[(fs.map String.mk).length]?
      = some (String.mk (g ++ ['\n'])) := List.getElem?_concat_length _ _
  rw [hlen] at hget
  rw [List.getD_eq_getElem?_getD, hget]
  simp only [Option.getD_some]
  intro he
  have h2 : g ++ ['\n'] = v := by injection he
  exact hv (h2 ▸ List.mem_append.mpr (Or.inr (List.mem_cons_self '\n' [])))

theorem last_column_newline_witness :
    split_csv_line (String.mk (joinComma ([['5']] ++ [['d'] ++ ['\n']])))
        = ([['5']] ++ [['d'] ++ ['\n']]).map String.mk
      ∧ (split_csv_line (String.mk (joinComma ([['5']] ++ [['d'] ++ ['\n']])))).getD
          (List.length [['5']]) "" ≠ String.mk ['d'] :=
  last_column_newline.1 [['5']] ['d'] ['d']
    (by decide) (by decide) (by decide) (by decide) (by decide)

end Gh2csv
